import Mathlib

/-!
Verification development for the ring-arena allocator (src/lib.rs).

The embedding models only what the allocator's bookkeeping observes:

* `ArenaAllocation` mirrors the Rust struct `ArenaAllocation { start, len }`.
* `Handle` mirrors `HandleInner<T>`: an `Arena` handle is represented by the
  offsets `(start, len)` that its `NonNull<[MaybeUninit<T>]>` pointer encodes
  relative to `storage.as_ptr()` (the slice pointer determines exactly these
  two numbers, which is all `deallocate` recovers from it via
  `offset_from_unsigned` and `len()`); a `Boxed` handle carries the length of
  its independently allocated buffer.
* `RingArena` keeps `capacity` (the length of `storage`, whose `MaybeUninit`
  contents are never observed), the `allocations` deque as a list (front
  first), and the flume unbounded channel as the FIFO list `queue` of
  `(start, len)` descriptors; `Handle::drop` appends to it, `try_recv` pops
  from the front.
* Fallible operations return `Option`: `none` models a panic (the
  out-of-bounds `self.storage[start]` index, the `expect` on the binary
  search, or the failed `assert_eq!` on lengths).
-/

structure ArenaAllocation where
  start : Nat
  len : Nat
deriving DecidableEq, Repr

/-- Rust `ArenaAllocation::end`: `self.start + self.len` (`end` is a Lean keyword). -/
def ArenaAllocation.endPos (a : ArenaAllocation) : Nat := a.start + a.len

/-- View of an allocation as the `(start, len)` pair a drop descriptor carries. -/
def ArenaAllocation.toPair (a : ArenaAllocation) : Nat × Nat := (a.start, a.len)

/-- Rust `HandleInner<T>` (the field of `Handle<T>`): a ring-backed handle is
determined by its region offsets, a boxed handle by its buffer length. -/
inductive Handle where
  | arena (start len : Nat)
  | boxed (len : Nat)
deriving DecidableEq, Repr

/-- Rust `Handle::is_boxed`. -/
def Handle.is_boxed : Handle → Bool
  | .arena _ _ => false
  | .boxed _ => true

/-- Length of the slice returned by `Handle::as_slice` / `as_mut_slice`
(under the contract that the arena is still alive): the length stored in the
`NonNull` slice pointer, respectively the boxed slice's length. -/
def Handle.sliceLen : Handle → Nat
  | .arena _ l => l
  | .boxed l => l

/-- Rust `RingArena<T>`, element type erased: `capacity = storage.len()`;
`allocations` is the `VecDeque<ArenaAllocation>` (head = front); `queue` is
the pending content of the flume channel (head = oldest, i.e. next
`try_recv` result). -/
structure RingArena where
  capacity : Nat
  allocations : List ArenaAllocation
  queue : List (Nat × Nat)
deriving DecidableEq, Repr

/-- Rust `RingArena::new(capacity)`: fresh storage, no allocations, empty channel. -/
def RingArena.new (capacity : Nat) : RingArena := ⟨capacity, [], []⟩

/-- Rust `RingArena::left_index`: start of the front allocation, or
`storage.len()` when there is none. -/
def RingArena.left_index (a : RingArena) : Nat :=
  match a.allocations.head? with
  | none => a.capacity
  | some first => first.start

/-- Rust `RingArena::available_left`. -/
def RingArena.available_left (a : RingArena) : Nat := a.left_index

/-- Rust `RingArena::right_index`: end of the back allocation, or
`storage.len()` when there is none. -/
def RingArena.right_index (a : RingArena) : Nat :=
  match a.allocations.getLast? with
  | none => a.capacity
  | some last => last.endPos

/-- Rust `RingArena::available_right`: `storage.len() - right_index` (usize
subtraction; `right_index ≤ capacity` holds in every reachable state). -/
def RingArena.available_right (a : RingArena) : Nat := a.capacity - a.right_index

/-- Loop of Rust's `slice::binary_search_by` (which
`VecDeque::binary_search_by_key` defers to on the deque's slices): while
`size > 1`, probe `mid = base + size / 2`, keep `base` when the probed key is
greater than the target, move `base` to `mid` otherwise, and shrink `size` by
`half`. The loop runs at most `size` iterations (size strictly decreases), so
the structural `fuel` — always called with `fuel = l.length ≥ size` — never
runs out. -/
def bsLoop (l : List ArenaAllocation) (key : Nat) : Nat → Nat → Nat → Nat
  | 0, base, _ => base
  | fuel + 1, base, size =>
    if 1 < size then
      let half := size / 2
      if key < (l.getD (base + half) ⟨0, 0⟩).start then
        bsLoop l key fuel base (size - half)
      else
        bsLoop l key fuel (base + half) (size - half)
    else base

/-- Rust `self.allocations.binary_search_by_key(&start, |k| k.start)`,
restricted to what `deallocate` observes: `some i` when the search ends on an
element whose `start` equals the key (`Ok(i)`), `none` for `Err(_)`. -/
def binary_search_by_key (l : List ArenaAllocation) (key : Nat) : Option Nat :=
  if l.isEmpty then none
  else
    let base := bsLoop l key l.length 0 l.length
    if (l.getD base ⟨0, 0⟩).start = key then some base else none

/-- Body of the `while let Ok(alloc) = self.receiver.try_recv()` loop in
`RingArena::deallocate`, for one received descriptor `d = (start, len)`:
find the allocation by `start` (`none` = the `expect` fires), check its
recorded length against the slice length (`none` = the `assert_eq!` fires),
and remove it. -/
def drainOne (a : RingArena) (d : Nat × Nat) : Option RingArena :=
  match binary_search_by_key a.allocations d.1 with
  | none => none
  | some i =>
    if (a.allocations.getD i ⟨0, 0⟩).len = d.2 then
      some { a with allocations := a.allocations.eraseIdx i }
    else none

/-- Iteration of the `try_recv` loop over the queued descriptors, oldest
first. No sender runs while the single-threaded drain does, so the snapshot
of the queue is exactly what the loop consumes. -/
def drainAll : List (Nat × Nat) → RingArena → Option RingArena
  | [], a => some a
  | d :: rest, a =>
    match drainOne a d with
    | none => none
    | some a' => drainAll rest a'

/-- Rust `RingArena::deallocate`: drain every pending descriptor. -/
def RingArena.deallocate (a : RingArena) : Option RingArena :=
  drainAll a.queue { a with queue := [] }

/-- Rust `RingArena::allocate`: drain, then try the right edge, then the left
edge, else fall back to a heap allocation. `&mut self.storage[start]` panics
(`none`) unless `start < capacity`. -/
def RingArena.allocate (a : RingArena) (length : Nat) : Option (Handle × RingArena) :=
  match a.deallocate with
  | none => none
  | some b =>
    if length ≤ b.available_right then
      let start := b.right_index
      if start < b.capacity then
        some (.arena start length,
          { b with allocations := b.allocations ++ [⟨start, length⟩] })
      else none
    else if length ≤ b.available_left then
      let start := b.left_index - length
      if start < b.capacity then
        some (.arena start length,
          { b with allocations := ⟨start, length⟩ :: b.allocations })
      else none
    else
      some (.boxed length, b)

/-- Rust `impl Drop for Handle`: a ring-backed handle sends its slice pointer
(equivalently its `(start, len)` descriptor) on the channel; a boxed handle
does nothing the arena can observe. -/
def Handle.drop (h : Handle) (a : RingArena) : RingArena :=
  match h with
  | .arena s l => { a with queue := a.queue ++ [(s, l)] }
  | .boxed _ => a

/-- Rust `impl Drop for RingArena`: `none` models the
`panic!("ring arena dropped while allocations exist")` when `allocations` is
non-empty; `some ()` is a clean drop. -/
def RingArena.drop (a : RingArena) : Option Unit :=
  if a.allocations.isEmpty then some () else none

/-- Whole-system state: the arena plus the multiset of outstanding (issued,
not yet dropped) handles. -/
structure SysState where
  arena : RingArena
  live : List Handle
deriving DecidableEq, Repr

/-- State right after `RingArena::new(capacity)`. -/
def initState (capacity : Nat) : SysState := ⟨RingArena.new capacity, []⟩

/-- One step of the system: a successful `allocate` (for a length satisfying
`P`), or the drop of one outstanding handle. A step only exists when the
operation does not panic. -/
inductive Step (P : Nat → Prop) : SysState → SysState → Prop where
  | alloc (s : SysState) (n : Nat) (h : Handle) (a' : RingArena) :
      P n → s.arena.allocate n = some (h, a') →
      Step P s ⟨a', h :: s.live⟩
  | dropH (s : SysState) (h : Handle) :
      h ∈ s.live →
      Step P s ⟨h.drop s.arena, s.live.erase h⟩

/-- States reachable from a fresh arena by any sequence of (non-panicking)
allocate and handle-drop operations whose requested lengths satisfy `P`. -/
def Reachable (P : Nat → Prop) (capacity : Nat) (s : SysState) : Prop :=
  Relation.ReflTransGen (Step P) (initState capacity) s

/-- Regions referenced by the outstanding ring-backed handles. -/
def regionsOf (l : List Handle) : List (Nat × Nat) :=
  l.filterMap fun h =>
    match h with
    | .arena s n => some (s, n)
    | .boxed _ => none

/-! ## List utilities -/

/-- Mapping commutes with removing an index. -/
theorem map_eraseIdx_comm {α β : Type} (f : α → β) (l : List α) :
    ∀ i : Nat, (l.eraseIdx i).map f = (l.map f).eraseIdx i := by
  induction l with
  | nil => intro i; simp
  | cons a t ih =>
    intro i
    cases i with
    | zero => simp [List.eraseIdx]
    | succ j => simp [List.eraseIdx, ih j]

/-- A list is a permutation of any one element consed onto the rest. -/
theorem perm_cons_eraseIdx {α : Type} (l : List α) :
    ∀ (i : Nat) (h : i < l.length), List.Perm l (l[i] :: l.eraseIdx i) := by
  induction l with
  | nil => intro i h; simp at h
  | cons a t ih =>
    intro i h
    cases i with
    | zero => simp [List.eraseIdx]
    | succ j =>
      simp only [List.eraseIdx, List.getElem_cons_succ]
      have hj : j < t.length := by simpa using h
      exact ((ih j hj).cons a).trans (List.Perm.swap _ _ _)

/-! ## Binary search -/

/-- With any fuel, the search loop stays inside the window it was given. -/
theorem bsLoop_lt (l : List ArenaAllocation) (key : Nat) :
    ∀ (fuel base size : Nat), 1 ≤ size → bsLoop l key fuel base size < base + size := by
  intro fuel
  induction fuel with
  | zero => intro base size hs; simp only [bsLoop]; omega
  | succ f ih =>
    intro base size hs
    simp only [bsLoop]
    by_cases h1 : 1 < size
    · simp only [if_pos h1]
      by_cases hk : key < (l.getD (base + size / 2) ⟨0, 0⟩).start
      · simp only [if_pos hk]
        have := ih base (size - size / 2) (by omega)
        omega
      · simp only [if_neg hk]
        have := ih (base + size / 2) (size - size / 2) (by omega)
        omega
    · simp only [if_neg h1]; omega

/-- On a list whose starts are strictly increasing, comparing entries at two
positions compares the positions. -/
theorem getD_start_lt_of_lt (l : List ArenaAllocation)
    (hsort : l.Pairwise fun x y => x.start < y.start)
    (i j : Nat) (hij : i < j) (hj : j < l.length) :
    (l.getD i ⟨0, 0⟩).start < (l.getD j ⟨0, 0⟩).start := by
  rw [List.getD_eq_getElem l _ (lt_trans hij hj), List.getD_eq_getElem l _ hj]
  exact List.pairwise_iff_get.mp hsort ⟨i, lt_trans hij hj⟩ ⟨j, hj⟩ hij

/-- When the starts are strictly increasing, the key is present, and the fuel
covers the window, the search loop lands exactly on the key's position. -/
theorem bsLoop_finds (l : List ArenaAllocation) (key : Nat)
    (hsort : l.Pairwise fun x y => x.start < y.start) :
    ∀ (fuel base size i : Nat), size ≤ fuel → 1 ≤ size →
      base + size ≤ l.length → base ≤ i → i < base + size →
      (l.getD i ⟨0, 0⟩).start = key →
      bsLoop l key fuel base size = i := by
  intro fuel
  induction fuel with
  | zero => intro base size i hsf hs _ _ _ _; omega
  | succ f ih =>
    intro base size i hsf hs hlen hbi hib hkey
    simp only [bsLoop]
    by_cases h1 : 1 < size
    · simp only [if_pos h1]
      have hmidlt : base + size / 2 < l.length := by omega
      by_cases hk : key < (l.getD (base + size / 2) ⟨0, 0⟩).start
      · simp only [if_pos hk]
        have hlt : i < base + size / 2 := by
          rcases Nat.lt_trichotomy i (base + size / 2) with h | h | h
          · exact h
          · rw [h] at hkey; omega
          · have := getD_start_lt_of_lt l hsort (base + size / 2) i h (by omega)
            omega
        exact ih base (size - size / 2) i (by omega) (by omega) (by omega) hbi (by omega) hkey
      · simp only [if_neg hk]
        have hge : base + size / 2 ≤ i := by
          by_contra h2
          push_neg at h2
          have := getD_start_lt_of_lt l hsort i (base + size / 2) h2 hmidlt
          omega
        exact ih (base + size / 2) (size - size / 2) i (by omega) (by omega) (by omega) hge
          (by omega) hkey
    · simp only [if_neg h1]
      omega

/-- If `binary_search_by_key` answers `some i`, then `i` is in range and the
entry there has the searched start. -/
theorem binary_search_by_key_some (l : List ArenaAllocation) (key i : Nat)
    (h : binary_search_by_key l key = some i) :
    i < l.length ∧ (l.getD i ⟨0, 0⟩).start = key := by
  unfold binary_search_by_key at h
  by_cases he : l.isEmpty
  · rw [if_pos he] at h; cases h
  · rw [if_neg he] at h
    have hpos : 1 ≤ l.length := by
      cases l with
      | nil => simp at he
      | cons a t => simp
    by_cases hs : (l.getD (bsLoop l key l.length 0 l.length) ⟨0, 0⟩).start = key
    · rw [if_pos hs] at h
      have hb := bsLoop_lt l key l.length 0 l.length hpos
      obtain rfl : bsLoop l key l.length 0 l.length = i := Option.some.inj h
      exact ⟨by omega, hs⟩
    · rw [if_neg hs] at h; cases h

/-- On strictly-sorted starts, searching for a present start succeeds at its
(unique) position. -/
theorem binary_search_by_key_finds (l : List ArenaAllocation) (key : Nat)
    (hsort : l.Pairwise fun x y => x.start < y.start)
    (i : Nat) (hi : i < l.length) (hkey : (l.getD i ⟨0, 0⟩).start = key) :
    binary_search_by_key l key = some i := by
  unfold binary_search_by_key
  have he : ¬ l.isEmpty := by
    cases l with
    | nil => simp at hi
    | cons a t => simp
  rw [if_neg he]
  have hb := bsLoop_finds l key hsort l.length 0 l.length i le_rfl (by omega) (by omega)
    (by omega) (by omega) hkey
  rw [hb, if_pos hkey]

/-! ## Drain lemmas -/

/-- Characterization of a successful single drain step: it removed exactly one
entry, equal to the received descriptor. -/
theorem drainOne_some (a : RingArena) (d : Nat × Nat) (a₂ : RingArena)
    (h : drainOne a d = some a₂) :
    ∃ i, ∃ hi : i < a.allocations.length,
      a.allocations[i] = ⟨d.1, d.2⟩ ∧
      a₂ = { a with allocations := a.allocations.eraseIdx i } := by
  unfold drainOne at h
  cases hbs : binary_search_by_key a.allocations d.1 with
  | none => rw [hbs] at h; cases h
  | some i =>
    rw [hbs] at h
    dsimp only at h
    obtain ⟨hi, hstart⟩ := binary_search_by_key_some _ _ _ hbs
    by_cases hlen : (a.allocations.getD i ⟨0, 0⟩).len = d.2
    · rw [if_pos hlen] at h
      refine ⟨i, hi, ?_, (Option.some.inj h).symm⟩
      rw [List.getD_eq_getElem _ _ hi] at hstart hlen
      cases hx : a.allocations[i] with
      | mk s n =>
        rw [hx] at hstart hlen
        simp only at hstart hlen
        rw [hstart, hlen]
    · rw [if_neg hlen] at h; cases h

/-- Converse direction on strictly-sorted starts: a descriptor matching the
entry at position `i` drains successfully by removing exactly that entry. -/
theorem drainOne_eq_some (a : RingArena) (d : Nat × Nat) (i : Nat)
    (hsort : a.allocations.Pairwise fun x y => x.start < y.start)
    (hi : i < a.allocations.length)
    (helem : a.allocations[i] = ⟨d.1, d.2⟩) :
    drainOne a d = some { a with allocations := a.allocations.eraseIdx i } := by
  unfold drainOne
  rw [binary_search_by_key_finds a.allocations d.1 hsort i hi
    (by rw [List.getD_eq_getElem _ _ hi, helem])]
  dsimp only
  rw [if_pos (by rw [List.getD_eq_getElem _ _ hi, helem])]

/-- Removing the entry that matches a drained descriptor updates the
region-multiset accounting accordingly. -/
theorem perm_after_erase (l : List ArenaAllocation) (i : Nat) (hi : i < l.length)
    (d : Nat × Nat) (helem : l[i] = ⟨d.1, d.2⟩) (others rest : List (Nat × Nat))
    (hperm : List.Perm (l.map ArenaAllocation.toPair) (others ++ d :: rest)) :
    List.Perm ((l.eraseIdx i).map ArenaAllocation.toPair) (others ++ rest) := by
  have hlenm : i < (l.map ArenaAllocation.toPair).length := by simpa using hi
  have hpc : List.Perm (l.map ArenaAllocation.toPair)
      (d :: (l.map ArenaAllocation.toPair).eraseIdx i) := by
    have hp := perm_cons_eraseIdx (l.map ArenaAllocation.toPair) i hlenm
    have hget : (l.map ArenaAllocation.toPair)[i] = d := by
      rw [List.getElem_map, helem]
      simp [ArenaAllocation.toPair]
    rwa [hget] at hp
  have h2 : List.Perm (others ++ d :: rest) (d :: (others ++ rest)) := List.perm_middle
  have h3 : List.Perm (d :: (l.map ArenaAllocation.toPair).eraseIdx i)
      (d :: (others ++ rest)) := hpc.symm.trans (hperm.trans h2)
  rw [map_eraseIdx_comm]
  exact h3.cons_inv

/-- A successful full drain removes exactly the queued descriptors from the
allocations list (multiset accounting), leaving capacity and queue
untouched. -/
theorem drainAll_props :
    ∀ (q : List (Nat × Nat)) (a a₂ : RingArena) (others : List (Nat × Nat)),
      drainAll q a = some a₂ →
      List.Perm (a.allocations.map ArenaAllocation.toPair) (others ++ q) →
      (List.Sublist a₂.allocations a.allocations ∧
        List.Perm (a₂.allocations.map ArenaAllocation.toPair) others ∧
        a₂.capacity = a.capacity ∧ a₂.queue = a.queue) := by
  intro q
  induction q with
  | nil =>
    intro a a₂ others h hperm
    simp only [drainAll] at h
    obtain rfl := Option.some.inj h
    exact ⟨List.Sublist.refl _, by simpa using hperm, rfl, rfl⟩
  | cons d rest ih =>
    intro a a₂ others h hperm
    simp only [drainAll] at h
    cases h1 : drainOne a d with
    | none => rw [h1] at h; cases h
    | some a₁ =>
      rw [h1] at h
      dsimp only at h
      obtain ⟨i, hi, helem, rfl⟩ := drainOne_some a d a₁ h1
      have hperm1 := perm_after_erase a.allocations i hi d helem others rest hperm
      obtain ⟨hsub2, hperm2, hcap, hq⟩ := ih _ a₂ others h hperm1
      exact ⟨hsub2.trans (List.eraseIdx_sublist _ _), hperm2, hcap, hq⟩

/-- When every allocation has a distinct start (strictly sorted) and the
queued descriptors are all recorded in the allocations list, the whole drain
succeeds: neither the `expect` nor the `assert_eq!` fires. -/
theorem drainAll_total :
    ∀ (q : List (Nat × Nat)) (a : RingArena) (others : List (Nat × Nat)),
      a.allocations.Pairwise (fun x y => x.start < y.start) →
      List.Perm (a.allocations.map ArenaAllocation.toPair) (others ++ q) →
      ∃ a₂, drainAll q a = some a₂ := by
  intro q
  induction q with
  | nil => exact fun a others _ _ => ⟨a, rfl⟩
  | cons d rest ih =>
    intro a others hsort hperm
    have hd : d ∈ a.allocations.map ArenaAllocation.toPair :=
      hperm.mem_iff.mpr (by simp)
    obtain ⟨i, hi, helem⟩ := List.mem_iff_getElem.mp hd
    have hi' : i < a.allocations.length := by simpa using hi
    have helem' : a.allocations[i] = ⟨d.1, d.2⟩ := by
      rw [List.getElem_map] at helem
      cases hx : a.allocations[i] with
      | mk s n =>
        rw [hx] at helem
        simp only [ArenaAllocation.toPair] at helem
        rw [← helem]
    simp only [drainAll]
    rw [drainOne_eq_some a d i hsort hi' helem']
    exact ih _ others (hsort.sublist (List.eraseIdx_sublist _ _))
      (perm_after_erase a.allocations i hi' d helem' others rest hperm)

/-! ## Index bounds -/

/-- Membership through `getLast?`. -/
theorem mem_of_getLast?_eq {α : Type} (l : List α) (x : α) (h : l.getLast? = some x) :
    x ∈ l := by
  have hx : x ∈ l.getLast? := by simp [h]
  have h2 := List.mem_getLast?_eq_getLast hx
  obtain ⟨hne, rfl⟩ := h2
  exact List.getLast_mem hne

/-- Every recorded region ends at or before `right_index`. -/
theorem endPos_le_right_index (a : RingArena)
    (hp : a.allocations.Pairwise fun x y => x.endPos ≤ y.start) :
    ∀ x ∈ a.allocations, x.endPos ≤ a.right_index := by
  intro x hx
  have hne : a.allocations ≠ [] := by
    intro h
    rw [h] at hx
    cases hx
  unfold RingArena.right_index
  rw [List.getLast?_eq_getLast _ hne]
  dsimp only
  have hsplit := List.dropLast_append_getLast hne
  rw [← hsplit] at hx hp
  rw [List.pairwise_append] at hp
  obtain ⟨-, -, hrel⟩ := hp
  rcases List.mem_append.mp hx with hx1 | hx2
  · have h1 := hrel x hx1 (a.allocations.getLast hne) (by simp)
    have h2 : (a.allocations.getLast hne).start ≤ (a.allocations.getLast hne).endPos :=
      Nat.le_add_right _ _
    omega
  · have hx3 : x = a.allocations.getLast hne := by simpa using hx2
    rw [hx3]

/-- The right edge never passes the capacity when all regions are in bounds. -/
theorem right_index_le_capacity (a : RingArena)
    (hb : ∀ x ∈ a.allocations, x.endPos ≤ a.capacity) :
    a.right_index ≤ a.capacity := by
  unfold RingArena.right_index
  cases hl : a.allocations.getLast? with
  | none => exact le_refl _
  | some last => exact hb last (mem_of_getLast?_eq _ _ hl)

/-- Every recorded region starts at or after `left_index`. -/
theorem left_index_le_start (a : RingArena)
    (hp : a.allocations.Pairwise fun x y => x.endPos ≤ y.start) :
    ∀ x ∈ a.allocations, a.left_index ≤ x.start := by
  intro x hx
  unfold RingArena.left_index
  cases hl : a.allocations with
  | nil =>
    rw [hl] at hx
    cases hx
  | cons first rest =>
    dsimp only [List.head?]
    rw [hl] at hx hp
    rcases List.mem_cons.mp hx with hx1 | hx2
    · rw [hx1]
    · have h1 := (List.pairwise_cons.mp hp).1 x hx2
      have h2 : first.start ≤ first.endPos := Nat.le_add_right _ _
      omega

/-- The left edge never passes the capacity when all regions are in bounds. -/
theorem left_index_le_capacity (a : RingArena)
    (hb : ∀ x ∈ a.allocations, x.endPos ≤ a.capacity) :
    a.left_index ≤ a.capacity := by
  unfold RingArena.left_index
  cases hl : a.allocations with
  | nil => exact le_refl _
  | cons first rest =>
    dsimp only [List.head?]
    have h2 : first.start ≤ first.endPos := Nat.le_add_right _ _
    have h3 := hb first (by rw [hl]; exact List.mem_cons_self _ _)
    omega

/-! ## The reachability invariant -/

/-- Bookkeeping invariant tying the arena to the outstanding handles: the
recorded regions form a non-overlapping left-to-right chain inside the
storage, and, as a multiset, they are exactly the regions of the outstanding
ring handles plus the queued (dropped, not yet drained) descriptors. `lb` is
a lower bound on every recorded region length (`0` for arbitrary traces, `1`
for traces that never request length 0). -/
structure SysInv (lb : Nat) (s : SysState) : Prop where
  chain : s.arena.allocations.Pairwise fun x y => x.endPos ≤ y.start
  bounded : ∀ x ∈ s.arena.allocations, x.endPos ≤ s.arena.capacity
  lenlb : ∀ x ∈ s.arena.allocations, lb ≤ x.len
  perm : List.Perm (s.arena.allocations.map ArenaAllocation.toPair)
    (regionsOf s.live ++ s.arena.queue)

/-- Dropping a boxed handle from the live list leaves the accounted regions
unchanged. -/
theorem regionsOf_cons_boxed (n : Nat) (l : List Handle) :
    regionsOf (.boxed n :: l) = regionsOf l := by
  simp [regionsOf]

/-- Consing a ring handle adds its region in front. -/
theorem regionsOf_cons_arena (st n : Nat) (l : List Handle) :
    regionsOf (.arena st n :: l) = (st, n) :: regionsOf l := by
  simp [regionsOf]

/-- One system step preserves the invariant. -/
theorem step_inv {P : Nat → Prop} {lb : Nat} {s s₂ : SysState}
    (hP : ∀ n, P n → lb ≤ n) (hinv : SysInv lb s) (hstep : Step P s s₂) : SysInv lb s₂ := by
  cases hstep with
  | alloc n hh a' hPn hall =>
    unfold RingArena.allocate at hall
    cases hd : s.arena.deallocate with
    | none => rw [hd] at hall; cases hall
    | some b =>
      rw [hd] at hall
      dsimp only at hall
      unfold RingArena.deallocate at hd
      obtain ⟨hsub, hperm, hcap, hq⟩ :=
        drainAll_props s.arena.queue _ b (regionsOf s.live) hd hinv.perm
      have hchain_b : b.allocations.Pairwise fun x y => x.endPos ≤ y.start :=
        hinv.chain.sublist hsub
      have hbound_b : ∀ x ∈ b.allocations, x.endPos ≤ b.capacity := fun x hx => by
        rw [hcap]; exact hinv.bounded x (hsub.subset hx)
      have hlen_b : ∀ x ∈ b.allocations, lb ≤ x.len := fun x hx =>
        hinv.lenlb x (hsub.subset hx)
      by_cases h1 : n ≤ b.available_right
      · rw [if_pos h1] at hall
        by_cases h2 : b.right_index < b.capacity
        · rw [if_pos h2] at hall
          obtain ⟨hh1, ha1⟩ := Prod.mk.inj (Option.some.inj hall)
          subst hh1; subst ha1
          have hri : b.right_index ≤ b.capacity := right_index_le_capacity b hbound_b
          have hfit : b.right_index + n ≤ b.capacity := by
            unfold RingArena.available_right at h1
            omega
          refine ⟨?_, ?_, ?_, ?_⟩
          · refine List.pairwise_append.mpr ⟨hchain_b, List.pairwise_singleton _ _, ?_⟩
            intro x hx y hy
            have hy1 : y = ⟨b.right_index, n⟩ := by simpa using hy
            rw [hy1]
            exact endPos_le_right_index b hchain_b x hx
          · intro x hx
            rcases List.mem_append.mp hx with hx1 | hx2
            · exact hbound_b x hx1
            · have hx3 : x = ⟨b.right_index, n⟩ := by simpa using hx2
              rw [hx3]
              exact hfit
          · intro x hx
            rcases List.mem_append.mp hx with hx1 | hx2
            · exact hlen_b x hx1
            · have hx3 : x = ⟨b.right_index, n⟩ := by simpa using hx2
              rw [hx3]
              exact hP n hPn
          · show List.Perm
              ((b.allocations ++ [(⟨b.right_index, n⟩ : ArenaAllocation)]).map
                ArenaAllocation.toPair)
              (regionsOf (Handle.arena b.right_index n :: s.live) ++ b.queue)
            rw [hq, regionsOf_cons_arena, List.append_nil, List.map_append]
            refine (List.perm_append_singleton _ _).trans ?_
            exact hperm.cons _
        · rw [if_neg h2] at hall; cases hall
      · rw [if_neg h1] at hall
        by_cases h3 : n ≤ b.available_left
        · rw [if_pos h3] at hall
          by_cases h4 : b.left_index - n < b.capacity
          · rw [if_pos h4] at hall
            obtain ⟨hh1, ha1⟩ := Prod.mk.inj (Option.some.inj hall)
            subst hh1; subst ha1
            have hL : n ≤ b.left_index := h3
            have hLc : b.left_index ≤ b.capacity := left_index_le_capacity b hbound_b
            have hend : (⟨b.left_index - n, n⟩ : ArenaAllocation).endPos = b.left_index := by
              show b.left_index - n + n = b.left_index
              omega
            refine ⟨?_, ?_, ?_, ?_⟩
            · refine List.pairwise_cons.mpr ⟨?_, hchain_b⟩
              intro y hy
              rw [hend]
              exact left_index_le_start b hchain_b y hy
            · intro x hx
              rcases List.mem_cons.mp hx with hx1 | hx2
              · rw [hx1, hend]; exact hLc
              · exact hbound_b x hx2
            · intro x hx
              rcases List.mem_cons.mp hx with hx1 | hx2
              · rw [hx1]; exact hP n hPn
              · exact hlen_b x hx2
            · show List.Perm
                (((⟨b.left_index - n, n⟩ : ArenaAllocation) :: b.allocations).map
                  ArenaAllocation.toPair)
                (regionsOf (Handle.arena (b.left_index - n) n :: s.live) ++ b.queue)
              rw [hq, regionsOf_cons_arena, List.append_nil, List.map_cons]
              exact hperm.cons _
          · rw [if_neg h4] at hall; cases hall
        · rw [if_neg h3] at hall
          obtain ⟨hh1, ha1⟩ := Prod.mk.inj (Option.some.inj hall)
          subst hh1; subst ha1
          refine ⟨hchain_b, hbound_b, hlen_b, ?_⟩
          show List.Perm (b.allocations.map ArenaAllocation.toPair)
            (regionsOf (Handle.boxed n :: s.live) ++ b.queue)
          rw [hq, regionsOf_cons_boxed, List.append_nil]
          exact hperm
  | dropH hh hmem =>
    have hlive : List.Perm s.live (hh :: s.live.erase hh) := List.perm_cons_erase hmem
    cases hh with
    | boxed n =>
      refine ⟨hinv.chain, hinv.bounded, hinv.lenlb, ?_⟩
      show List.Perm (s.arena.allocations.map ArenaAllocation.toPair)
        (regionsOf (s.live.erase (Handle.boxed n)) ++ s.arena.queue)
      have hreg : List.Perm (regionsOf s.live) (regionsOf (s.live.erase (Handle.boxed n))) := by
        have h2 := hlive.filterMap fun h => match h with
          | .arena s n => some (s, n)
          | .boxed _ => none
        rw [show List.filterMap _ s.live = regionsOf s.live from rfl] at h2
        rw [show List.filterMap _ (Handle.boxed n :: s.live.erase (Handle.boxed n)) =
          regionsOf (Handle.boxed n :: s.live.erase (Handle.boxed n)) from rfl] at h2
        rw [regionsOf_cons_boxed] at h2
        exact h2
      exact hinv.perm.trans (hreg.append_right _)
    | arena st n =>
      refine ⟨hinv.chain, hinv.bounded, hinv.lenlb, ?_⟩
      show List.Perm (s.arena.allocations.map ArenaAllocation.toPair)
        (regionsOf (s.live.erase (Handle.arena st n)) ++ (s.arena.queue ++ [(st, n)]))
      have hreg : List.Perm (regionsOf s.live)
          ((st, n) :: regionsOf (s.live.erase (Handle.arena st n))) := by
        have h2 := hlive.filterMap fun h => match h with
          | .arena s n => some (s, n)
          | .boxed _ => none
        rw [show List.filterMap _ s.live = regionsOf s.live from rfl] at h2
        rw [show List.filterMap _ (Handle.arena st n :: s.live.erase (Handle.arena st n)) =
          regionsOf (Handle.arena st n :: s.live.erase (Handle.arena st n)) from rfl] at h2
        rw [regionsOf_cons_arena] at h2
        exact h2
      refine (hinv.perm.trans (hreg.append_right _)).trans ?_
      refine List.Perm.trans ?_
        (List.Perm.refl (regionsOf (s.live.erase (Handle.arena st n)) ++
          (s.arena.queue ++ [(st, n)])))
      have h5 : List.Perm
          ((st, n) :: (regionsOf (s.live.erase (Handle.arena st n)) ++ s.arena.queue))
          ((regionsOf (s.live.erase (Handle.arena st n)) ++ s.arena.queue) ++ [(st, n)]) :=
        (List.perm_append_singleton _ _).symm
      rw [List.append_assoc] at h5
      exact h5

/-- Every reachable state satisfies the invariant, provided the allowed
request lengths respect the lower bound. -/
theorem reachable_inv {P : Nat → Prop} (lb : Nat) {capacity : Nat} {s : SysState}
    (hP : ∀ n, P n → lb ≤ n) (hr : Reachable P capacity s) : SysInv lb s := by
  unfold Reachable at hr
  induction hr with
  | refl =>
    refine ⟨?_, ?_, ?_, ?_⟩
    · exact List.Pairwise.nil
    · intro x hx; cases hx
    · intro x hx; cases hx
    · simp [initState, RingArena.new, regionsOf]
  | tail hab hbc ih => exact step_inv hP ih hbc

/-- Total length of a chain of in-bounds regions, measured from a lower bound
on the first start, never exceeds the capacity. -/
theorem chain_sum_le (capacity : Nat) :
    ∀ (l : List ArenaAllocation) (lo : Nat),
      l.Pairwise (fun x y => x.endPos ≤ y.start) →
      (∀ x ∈ l, lo ≤ x.start) → (∀ x ∈ l, x.endPos ≤ capacity) → lo ≤ capacity →
      lo + (l.map ArenaAllocation.len).sum ≤ capacity := by
  intro l
  induction l with
  | nil =>
    intro lo _ _ _ h
    simpa using h
  | cons a t ih =>
    intro lo hp hlo hbd hloc
    have hp' := List.pairwise_cons.mp hp
    have h1 : lo ≤ a.start := hlo a (List.mem_cons_self _ _)
    have h2 : a.endPos ≤ capacity := hbd a (List.mem_cons_self _ _)
    have h3 := ih a.endPos hp'.2 (fun x hx => hp'.1 x hx)
      (fun x hx => hbd x (List.mem_cons.mpr (Or.inr hx))) h2
    have h4 : a.endPos = a.start + a.len := rfl
    simp only [List.map_cons, List.sum_cons]
    omega

/-! ## The claims -/

/-- C1: the claim says allocate(length) always returns a Handle, for every
length including 0, never panicking. The code violates this: on a fresh
arena of capacity 4, allocate(0) takes the right-edge branch with
`start = right_index() = 4` and evaluates `self.storage[4]`, an
out-of-bounds index that panics (modeled by `none`). -/
theorem C1_allocate_zero_length_panics : (RingArena.new 4).allocate 0 = none := by decide

/-- C2: the claim says dropping the arena after all its handles were dropped
succeeds even when reclamation signals are still pending. The code violates
this: after allocate(1) and the drop of that sole handle, the descriptor sits
in the queue, `allocations` is still non-empty, and `RingArena::drop` hits
its `panic!` (modeled by `none`). The crate's own test drops `d` and then
the arena in exactly this way. -/
theorem C2_drop_with_pending_signals_panics :
    (RingArena.new 4).allocate 1 = some (.arena 3 1, ⟨4, [⟨3, 1⟩], []⟩)
    ∧ (Handle.arena 3 1).drop ⟨4, [⟨3, 1⟩], []⟩ = ⟨4, [⟨3, 1⟩], [(3, 1)]⟩
    ∧ RingArena.drop ⟨4, [⟨3, 1⟩], [(3, 1)]⟩ = none := by decide

/-- C3: for any sequence of allocate and handle-drop operations starting from
a new arena, at every point the recorded (not yet reclaimed) ring regions are
pairwise disjoint, every region lies within the storage bounds, and the total
recorded length never exceeds the capacity. -/
theorem C3_live_regions_disjoint_bounded (capacity : Nat) (s : SysState)
    (hr : Reachable (fun _ => True) capacity s) :
    (s.arena.allocations.Pairwise fun x y =>
        x.start + x.len ≤ y.start ∨ y.start + y.len ≤ x.start)
    ∧ (∀ x ∈ s.arena.allocations, x.start + x.len ≤ s.arena.capacity)
    ∧ (s.arena.allocations.map ArenaAllocation.len).sum ≤ s.arena.capacity := by
  have hinv := reachable_inv 0 (fun n _ => Nat.zero_le n) hr
  refine ⟨hinv.chain.imp (fun hab => Or.inl hab), fun x hx => hinv.bounded x hx, ?_⟩
  have h := chain_sum_le s.arena.capacity s.arena.allocations 0 hinv.chain
    (fun x _ => Nat.zero_le _) hinv.bounded (Nat.zero_le _)
  omega

/-- Witness for C3 at the concrete reachable state after allocate(1);
allocate(1) on a fresh capacity-4 arena. -/
theorem C3_live_regions_disjoint_bounded_witness :
    (([⟨2, 1⟩, ⟨3, 1⟩] : List ArenaAllocation).Pairwise fun x y =>
        x.start + x.len ≤ y.start ∨ y.start + y.len ≤ x.start)
    ∧ (∀ x ∈ ([⟨2, 1⟩, ⟨3, 1⟩] : List ArenaAllocation), x.start + x.len ≤ 4)
    ∧ (([⟨2, 1⟩, ⟨3, 1⟩] : List ArenaAllocation).map ArenaAllocation.len).sum ≤ 4 := by
  have h1 : Step (fun _ => True) (initState 4) ⟨⟨4, [⟨3, 1⟩], []⟩, [.arena 3 1]⟩ :=
    Step.alloc (initState 4) 1 (.arena 3 1) ⟨4, [⟨3, 1⟩], []⟩ trivial (by decide)
  have h2 : Step (fun _ => True) ⟨⟨4, [⟨3, 1⟩], []⟩, [.arena 3 1]⟩
      ⟨⟨4, [⟨2, 1⟩, ⟨3, 1⟩], []⟩, [.arena 2 1, .arena 3 1]⟩ :=
    Step.alloc ⟨⟨4, [⟨3, 1⟩], []⟩, [.arena 3 1]⟩ 1 (.arena 2 1)
      ⟨4, [⟨2, 1⟩, ⟨3, 1⟩], []⟩ trivial (by decide)
  have hr : Reachable (fun _ => True) 4
      ⟨⟨4, [⟨2, 1⟩, ⟨3, 1⟩], []⟩, [.arena 2 1, .arena 3 1]⟩ :=
    (Relation.ReflTransGen.single h1).tail h2
  exact C3_live_regions_disjoint_bounded 4 _ hr

/-- Modelled from the spec (for comparison with the code): `available_right`
as C4 words it — capacity minus end of the rightmost active region, or full
capacity when none is active. -/
def spec_available_right (a : RingArena) : Nat :=
  match a.allocations.getLast? with
  | none => a.capacity
  | some last => a.capacity - last.endPos

/-- C4 counterexample: on the empty arena the claim's available_right is the
full capacity (4), but the code's is 0 (`right_index()` returns
`storage.len()` when no allocation is active, not 0), so allocate(1) is NOT
appended at the right edge: it is prepended at the left edge, at [3,4). -/
theorem C4_available_right_empty_counterexample :
    spec_available_right (RingArena.new 4) = 4
    ∧ (RingArena.new 4).available_right = 0
    ∧ (RingArena.new 4).allocate 1 = some (.arena 3 1, ⟨4, [⟨3, 1⟩], []⟩) := by decide

/-- C4 amended: for positive lengths, allocate follows the two-sided rule
with the code's available_right = capacity − right_index, where right_index
is the end of the rightmost active region or the capacity when none is
active (so an empty arena offers 0 on the right): if available_right ≥
length the region is appended at the right edge starting at right_index;
otherwise if available_left ≥ length it is prepended at the left edge ending
at left_index; otherwise an independent heap buffer is allocated. -/
theorem C4_two_sided_placement_amended (capacity : Nat) (s : SysState)
    (hr : Reachable (fun _ => True) capacity s) (n : Nat) (hn : 1 ≤ n)
    (b : RingArena) (hd : s.arena.deallocate = some b) :
    (n ≤ b.available_right →
        s.arena.allocate n = some (.arena b.right_index n,
          { b with allocations := b.allocations ++ [⟨b.right_index, n⟩] }))
    ∧ (b.available_right < n → n ≤ b.available_left →
        s.arena.allocate n = some (.arena (b.left_index - n) n,
          { b with allocations := ⟨b.left_index - n, n⟩ :: b.allocations }))
    ∧ (b.available_right < n → b.available_left < n →
        s.arena.allocate n = some (.boxed n, b)) := by
  have hinv := reachable_inv 0 (fun m _ => Nat.zero_le m) hr
  have hd' := hd
  unfold RingArena.deallocate at hd'
  obtain ⟨hsub, -, hcap, -⟩ :=
    drainAll_props s.arena.queue _ b (regionsOf s.live) hd' hinv.perm
  have hbound_b : ∀ x ∈ b.allocations, x.endPos ≤ b.capacity := fun x hx => by
    rw [hcap]; exact hinv.bounded x (hsub.subset hx)
  have hLc : b.left_index ≤ b.capacity := left_index_le_capacity b hbound_b
  refine ⟨?_, ?_, ?_⟩
  · intro h1
    have h2 : b.right_index < b.capacity := by
      unfold RingArena.available_right at h1
      omega
    unfold RingArena.allocate
    rw [hd]
    dsimp only
    rw [if_pos h1, if_pos h2]
  · intro h1 h2
    have h2' : n ≤ b.left_index := h2
    have h4 : b.left_index - n < b.capacity := by omega
    unfold RingArena.allocate
    rw [hd]
    dsimp only
    rw [if_neg (not_le.mpr h1), if_pos h2, if_pos h4]
  · intro h1 h2
    unfold RingArena.allocate
    rw [hd]
    dsimp only
    rw [if_neg (not_le.mpr h1), if_neg (not_le.mpr h2)]

/-- Witness for C4 amended at the fresh arena: available_right = 0 < 1 ≤ 4 =
available_left, so allocate(1) is prepended at the left edge, ending at
left_index = 4. -/
theorem C4_two_sided_placement_amended_witness :
    (RingArena.new 4).allocate 1 = some (.arena 3 1, ⟨4, [⟨3, 1⟩], []⟩) := by
  have hr : Reachable (fun _ => True) 4 (initState 4) := Relation.ReflTransGen.refl
  have h := (C4_two_sided_placement_amended 4 (initState 4) hr 1 (by decide)
    (RingArena.new 4) (by decide)).2.1 (by decide) (by decide)
  exact h

/-- C5: for every call to allocate that returns, the returned handle reports
is_boxed() = true exactly when, in the drained state, neither available_right
nor available_left is at least the requested length. -/
theorem C5_is_boxed_iff_no_room (a b : RingArena) (n : Nat) (h : Handle)
    (a₂ : RingArena) (hd : a.deallocate = some b)
    (hall : a.allocate n = some (h, a₂)) :
    (h.is_boxed = true ↔ (b.available_right < n ∧ b.available_left < n)) := by
  unfold RingArena.allocate at hall
  rw [hd] at hall
  dsimp only at hall
  by_cases h1 : n ≤ b.available_right
  · rw [if_pos h1] at hall
    by_cases h2 : b.right_index < b.capacity
    · rw [if_pos h2] at hall
      obtain ⟨hh1, -⟩ := Prod.mk.inj (Option.some.inj hall)
      rw [← hh1]
      simp only [Handle.is_boxed, Bool.false_eq_true, false_iff]
      omega
    · rw [if_neg h2] at hall; cases hall
  · rw [if_neg h1] at hall
    by_cases h3 : n ≤ b.available_left
    · rw [if_pos h3] at hall
      by_cases h4 : b.left_index - n < b.capacity
      · rw [if_pos h4] at hall
        obtain ⟨hh1, -⟩ := Prod.mk.inj (Option.some.inj hall)
        rw [← hh1]
        simp only [Handle.is_boxed, Bool.false_eq_true, false_iff]
        omega
      · rw [if_neg h4] at hall; cases hall
    · rw [if_neg h3] at hall
      obtain ⟨hh1, -⟩ := Prod.mk.inj (Option.some.inj hall)
      rw [← hh1]
      constructor
      · intro _
        omega
      · intro _
        rfl

/-- Witness for C5 at the fresh capacity-4 arena and request 5: no room on
either side (0 and 4 are both < 5), and the handle is indeed boxed. -/
theorem C5_is_boxed_iff_no_room_witness :
    ((Handle.boxed 5).is_boxed = true ↔
      ((RingArena.new 4).available_right < 5 ∧ (RingArena.new 4).available_left < 5)) :=
  C5_is_boxed_iff_no_room (RingArena.new 4) (RingArena.new 4) 5 (.boxed 5)
    (RingArena.new 4) (by decide) (by decide)

/-- C6: every handle returned by allocate addresses a slice of exactly the
requested length, on the ring path and on the heap-fallback path alike. -/
theorem C6_slice_length_equals_request (a : RingArena) (n : Nat) (h : Handle)
    (a₂ : RingArena) (hall : a.allocate n = some (h, a₂)) : h.sliceLen = n := by
  unfold RingArena.allocate at hall
  cases hd : a.deallocate with
  | none => rw [hd] at hall; cases hall
  | some b =>
    rw [hd] at hall
    dsimp only at hall
    by_cases h1 : n ≤ b.available_right
    · rw [if_pos h1] at hall
      by_cases h2 : b.right_index < b.capacity
      · rw [if_pos h2] at hall
        obtain ⟨hh1, -⟩ := Prod.mk.inj (Option.some.inj hall)
        rw [← hh1]
        rfl
      · rw [if_neg h2] at hall; cases hall
    · rw [if_neg h1] at hall
      by_cases h3 : n ≤ b.available_left
      · rw [if_pos h3] at hall
        by_cases h4 : b.left_index - n < b.capacity
        · rw [if_pos h4] at hall
          obtain ⟨hh1, -⟩ := Prod.mk.inj (Option.some.inj hall)
          rw [← hh1]
          rfl
        · rw [if_neg h4] at hall; cases hall
      · rw [if_neg h3] at hall
        obtain ⟨hh1, -⟩ := Prod.mk.inj (Option.some.inj hall)
        rw [← hh1]
        rfl

/-- Witness for C6: allocate(2) on a fresh capacity-4 arena yields a ring
handle of slice length 2. -/
theorem C6_slice_length_equals_request_witness : (Handle.arena 2 2).sliceLen = 2 :=
  C6_slice_length_equals_request (RingArena.new 4) 2 (.arena 2 2)
    ⟨4, [⟨2, 2⟩], []⟩ (by decide)

/-- C7 counterexample: a heap-backed handle is an issued handle, yet with it
still outstanding (never dropped) the arena's allocations list is empty and
`RingArena::drop` succeeds — no abort, contradicting the claim for
"at least one handle". -/
theorem C7_boxed_outstanding_no_abort_counterexample :
    (RingArena.new 4).allocate 5 = some (.boxed 5, RingArena.new 4)
    ∧ (Handle.boxed 5).is_boxed = true
    ∧ (RingArena.new 4).drop = some () := by decide

/-- C7 amended: dropping the arena while at least one RING-BACKED handle is
still outstanding panics (the abort path); heap-backed handles do not
trigger it. -/
theorem C7_ring_outstanding_aborts_amended (capacity : Nat) (s : SysState)
    (hr : Reachable (fun _ => True) capacity s) (st n : Nat)
    (hmem : Handle.arena st n ∈ s.live) :
    s.arena.drop = none := by
  have hinv := reachable_inv 0 (fun m _ => Nat.zero_le m) hr
  have hne : s.arena.allocations ≠ [] := by
    intro h0
    have h1 : (st, n) ∈ regionsOf s.live :=
      List.mem_filterMap.mpr ⟨.arena st n, hmem, rfl⟩
    have h2 : (st, n) ∈ s.arena.allocations.map ArenaAllocation.toPair :=
      hinv.perm.mem_iff.mpr (List.mem_append_left _ h1)
    rw [h0] at h2
    cases h2
  unfold RingArena.drop
  rw [if_neg (by simpa using hne)]

/-- Witness for C7 amended: right after allocate(1) on a fresh capacity-4
arena, the ring handle [3,4) is outstanding and the arena's drop panics. -/
theorem C7_ring_outstanding_aborts_amended_witness :
    RingArena.drop ⟨4, [⟨3, 1⟩], []⟩ = none := by
  have h1 : Step (fun _ => True) (initState 4) ⟨⟨4, [⟨3, 1⟩], []⟩, [.arena 3 1]⟩ :=
    Step.alloc (initState 4) 1 (.arena 3 1) ⟨4, [⟨3, 1⟩], []⟩ trivial (by decide)
  exact C7_ring_outstanding_aborts_amended 4 ⟨⟨4, [⟨3, 1⟩], []⟩, [.arena 3 1]⟩
    (Relation.ReflTransGen.single h1) 3 1 (List.mem_cons_self _ _)

/-- C8 counterexample: in the claimed scenario the first allocation is said
to yield region [0,1); the code yields region [3,4) (the empty arena has
available_right = 0, so placement is at the left edge). -/
theorem C8_scenario_counterexample :
    (RingArena.new 4).allocate 1 = some (.arena 3 1, ⟨4, [⟨3, 1⟩], []⟩)
    ∧ Handle.arena 3 1 ≠ Handle.arena 0 1 := by decide

/-- C8 amended: the capacity-4 scenario with the regions the code actually
produces — allocate(1) yields [3,4); allocate(3) yields [0,3); allocate(2)
finds no room on either side and falls back to a heap handle
(is_boxed = true); after dropping the first two handles, allocate(4)
reclaims their space and yields the ring-backed region [0,4)
(is_boxed = false). -/
theorem C8_scenario_amended :
    (RingArena.new 4).allocate 1 = some (.arena 3 1, ⟨4, [⟨3, 1⟩], []⟩)
    ∧ RingArena.allocate ⟨4, [⟨3, 1⟩], []⟩ 3 = some (.arena 0 3, ⟨4, [⟨0, 3⟩, ⟨3, 1⟩], []⟩)
    ∧ RingArena.allocate ⟨4, [⟨0, 3⟩, ⟨3, 1⟩], []⟩ 2 =
        some (.boxed 2, ⟨4, [⟨0, 3⟩, ⟨3, 1⟩], []⟩)
    ∧ (Handle.boxed 2).is_boxed = true
    ∧ (Handle.arena 3 1).is_boxed = false
    ∧ (Handle.arena 0 3).is_boxed = false
    ∧ (Handle.arena 0 3).drop ((Handle.arena 3 1).drop ⟨4, [⟨0, 3⟩, ⟨3, 1⟩], []⟩) =
        ⟨4, [⟨0, 3⟩, ⟨3, 1⟩], [(3, 1), (0, 3)]⟩
    ∧ RingArena.allocate ⟨4, [⟨0, 3⟩, ⟨3, 1⟩], [(3, 1), (0, 3)]⟩ 4 =
        some (.arena 0 4, ⟨4, [⟨0, 4⟩], []⟩)
    ∧ (Handle.arena 0 4).is_boxed = false := by decide

/-- C9: the allocations deque is always sorted in non-decreasing order of
region start offset, at every reachable state. -/
theorem C9_allocations_sorted_by_start (capacity : Nat) (s : SysState)
    (hr : Reachable (fun _ => True) capacity s) :
    s.arena.allocations.Pairwise fun x y => x.start ≤ y.start := by
  have hinv := reachable_inv 0 (fun n _ => Nat.zero_le n) hr
  refine hinv.chain.imp ?_
  intro a b hab
  have h1 : a.start ≤ a.endPos := Nat.le_add_right _ _
  omega

/-- Witness for C9 at the concrete state reached by allocate(1); allocate(1)
on a fresh capacity-4 arena: starts 2, 3 are sorted. -/
theorem C9_allocations_sorted_by_start_witness :
    ([⟨2, 1⟩, ⟨3, 1⟩] : List ArenaAllocation).Pairwise fun x y => x.start ≤ y.start := by
  have h1 : Step (fun _ => True) (initState 4) ⟨⟨4, [⟨3, 1⟩], []⟩, [.arena 3 1]⟩ :=
    Step.alloc (initState 4) 1 (.arena 3 1) ⟨4, [⟨3, 1⟩], []⟩ trivial (by decide)
  have h2 : Step (fun _ => True) ⟨⟨4, [⟨3, 1⟩], []⟩, [.arena 3 1]⟩
      ⟨⟨4, [⟨2, 1⟩, ⟨3, 1⟩], []⟩, [.arena 2 1, .arena 3 1]⟩ :=
    Step.alloc ⟨⟨4, [⟨3, 1⟩], []⟩, [.arena 3 1]⟩ 1 (.arena 2 1)
      ⟨4, [⟨2, 1⟩, ⟨3, 1⟩], []⟩ trivial (by decide)
  exact C9_allocations_sorted_by_start 4 _ ((Relation.ReflTransGen.single h1).tail h2)

/-- C10 counterexample: with zero-length allocations, duplicate start
offsets arise and the drain's binary search can land on the wrong entry.
Trace on a fresh capacity-4 arena: allocate(1) → [3,4); allocate(1) → [2,3);
drop the first handle; allocate(0) → the zero-length region (3,0);
allocate(1) → [3,4) again (start 3, length 1); drop the zero-length handle;
the next allocate drains descriptor (3,0), the search lands on the entry
(3,1), and the length assertion fails — the `assert_eq!` fires (`none`). -/
theorem C10_drain_assert_fires_counterexample :
    (RingArena.new 4).allocate 1 = some (.arena 3 1, ⟨4, [⟨3, 1⟩], []⟩)
    ∧ RingArena.allocate ⟨4, [⟨3, 1⟩], []⟩ 1 = some (.arena 2 1, ⟨4, [⟨2, 1⟩, ⟨3, 1⟩], []⟩)
    ∧ (Handle.arena 3 1).drop ⟨4, [⟨2, 1⟩, ⟨3, 1⟩], []⟩ = ⟨4, [⟨2, 1⟩, ⟨3, 1⟩], [(3, 1)]⟩
    ∧ RingArena.allocate ⟨4, [⟨2, 1⟩, ⟨3, 1⟩], [(3, 1)]⟩ 0 =
        some (.arena 3 0, ⟨4, [⟨2, 1⟩, ⟨3, 0⟩], []⟩)
    ∧ RingArena.allocate ⟨4, [⟨2, 1⟩, ⟨3, 0⟩], []⟩ 1 =
        some (.arena 3 1, ⟨4, [⟨2, 1⟩, ⟨3, 0⟩, ⟨3, 1⟩], []⟩)
    ∧ (Handle.arena 3 0).drop ⟨4, [⟨2, 1⟩, ⟨3, 0⟩, ⟨3, 1⟩], []⟩ =
        ⟨4, [⟨2, 1⟩, ⟨3, 0⟩, ⟨3, 1⟩], [(3, 0)]⟩
    ∧ RingArena.allocate ⟨4, [⟨2, 1⟩, ⟨3, 0⟩, ⟨3, 1⟩], [(3, 0)]⟩ 1 = none := by decide

/-- C10 amended: provided every allocation request has positive length, the
reclamation drain always succeeds — every received descriptor matches a
recorded allocation, the binary search finds it, and the recorded length
equals the received length, so neither the `expect` nor the `assert_eq!`
fires. -/
theorem C10_drain_succeeds_for_positive_lengths_amended (capacity : Nat)
    (s : SysState) (hr : Reachable (fun n => 1 ≤ n) capacity s) :
    ∃ b, s.arena.deallocate = some b := by
  have hinv := reachable_inv 1 (fun n hn => hn) hr
  have hsort : s.arena.allocations.Pairwise fun x y => x.start < y.start := by
    refine hinv.chain.imp_of_mem ?_
    intro a b ha _ hab
    have h1 := hinv.lenlb a ha
    have h2 : a.endPos = a.start + a.len := rfl
    omega
  unfold RingArena.deallocate
  exact drainAll_total s.arena.queue _ (regionsOf s.live) hsort hinv.perm

/-- Witness for C10 amended: the state with one pending descriptor reached
by allocate(1) then dropping the handle; its drain succeeds. -/
theorem C10_drain_succeeds_for_positive_lengths_amended_witness :
    ∃ b, RingArena.deallocate ⟨4, [⟨3, 1⟩], [(3, 1)]⟩ = some b := by
  have h1 : Step (fun n => 1 ≤ n) (initState 4) ⟨⟨4, [⟨3, 1⟩], []⟩, [.arena 3 1]⟩ :=
    Step.alloc (initState 4) 1 (.arena 3 1) ⟨4, [⟨3, 1⟩], []⟩ (by decide) (by decide)
  have h2 : Step (fun n => 1 ≤ n) ⟨⟨4, [⟨3, 1⟩], []⟩, [.arena 3 1]⟩
      ⟨⟨4, [⟨3, 1⟩], [(3, 1)]⟩, []⟩ :=
    Step.dropH ⟨⟨4, [⟨3, 1⟩], []⟩, [.arena 3 1]⟩ (.arena 3 1) (List.mem_cons_self _ _)
  exact C10_drain_succeeds_for_positive_lengths_amended 4 ⟨⟨4, [⟨3, 1⟩], [(3, 1)]⟩, []⟩
    ((Relation.ReflTransGen.single h1).tail h2)
